import Mathlib

/-!
# nhistory: a TTL-bounded history of keys

Shallow embedding of `nhistory.go` and `helpers.go`.

Modelling conventions.

* A Go `string` is a finite byte sequence; it is represented by a Lean `String`, one
  character per byte, so `String.length` plays the role of Go's `len`.
* A `time.Time` is an instant, represented as a signed count of nanoseconds since the
  Unix epoch; a `time.Duration` is a signed count of nanoseconds. A `Duration` is an
  `int64`: its negation `-d` wraps around at `math.MinInt64`.
* A Go `map[string]time.Time` is an association list with pairwise distinct keys.
* The remote store reached through the redis client is one sorted set (the one named
  by `redisKey`). A score is a `float64`; the code only ever writes `float64(t.Unix())`,
  the conversion of an integer, whose value is again an integer: `t.Unix()` itself when
  it has at most 53 significant bits, and its rounding to 53 significant bits
  otherwise. A score is represented by that integer value.
* The mutex `safety` is held for the whole of each local map access; in this sequential
  model `Lock`/`Unlock` have no effect and are left out.
-/

namespace NHistory

/-! ## time -/

/-- An instant: nanoseconds since the Unix epoch. -/
abbrev Time := Int

/-- A `time.Duration`: nanoseconds. -/
abbrev Duration := Int

/-- Nanoseconds in a second (`time.Second`). -/
def second : Duration := 1000000000

/-- The value of a conversion to `int64`: the low 64 bits, read as a signed number. -/
def wrap64 (x : Int) : Int :=
  (x + 9223372036854775808) % 18446744073709551616 - 9223372036854775808

/-- The `int64` negation `-d` of a `Duration`: it wraps around, so that
`-math.MinInt64 = math.MinInt64`. -/
def Duration.neg (d : Duration) : Duration := wrap64 (-d)

/-- The nearest multiple of `u` to `n`, a tie going to the even multiple. -/
def roundEven (u n : Int) : Int :=
  let q := n / u
  let r := n % u
  if 2 * r < u ∨ (2 * r = u ∧ q % 2 = 0) then q * u else (q + 1) * u

/-- The value of the conversion `float64(n)` of an integer `n`: `n` itself when it has
at most 53 significant bits, and otherwise `n` rounded to 53 significant bits, to the
nearest representable value, a tie going to the even significand. -/
def float64 (n : Int) : Int :=
  if n.natAbs < 9007199254740992 then n
  else roundEven (2 ^ (Nat.log 2 n.natAbs - 52)) n

/-- The instant `t.Add(d)`. -/
def Time.Add (t : Time) (d : Duration) : Time := t + d

/-- The test `t.Before(u)`. -/
def Time.Before (t u : Time) : Bool := decide (t < u)

/-- The value `t.Unix()`: whole seconds since the epoch, rounded towards minus infinity. -/
def Time.Unix (t : Time) : Int := t / second

/-- The instant `time.Unix(sec, 0)`. -/
def unixTime (sec : Int) : Time := sec * second

/-- The zero value `time.Time{}`: January 1, year 1, 00:00:00 UTC. -/
def zeroTime : Time := -62135596800 * second

/-! ## helpers.go -/

/-- Model of `crypto/md5`: a digest function whose output has `md5.Size = 16` bytes. -/
structure MD5 where
  /-- The checksum of the bytes written so far. -/
  digest : String → String
  /-- Every checksum has 16 bytes. -/
  size_eq : ∀ s, (digest s).length = 16

/-- An inhabitant of `MD5` to evaluate definitions on: the all-zero digest. -/
def zeroMD5 : MD5 where
  digest := fun _ => String.mk (List.replicate 16 (Char.ofNat 0))
  size_eq := fun _ => rfl

/-- The function `NID(prefix, length)`; `generated` stands for what the random
generator (asked for `length` characters) or its timestamp fallback produced. -/
def NID (generated : String) (pre : String) (_length : Nat) : String :=
  if pre.length > 0 then pre ++ "_" ++ generated else generated

/-- The function `HashIt`: `md5.Write(b)` feeds `b` to the hash and `md5.Sum(b)`
appends the checksum to `b`. -/
def HashIt (md5 : MD5) (s : String) : String :=
  s ++ md5.digest s

/-- The function `CreateRedisKey`: the pair `(redisKey, err)`, where a nil error is
`none`. -/
def CreateRedisKey (KeyPartsArray : List String) (pre : String) (keyseparator : String) :
    String × Option String :=
  let allParts := [pre] ++ KeyPartsArray
  if allParts.any (fun v => v == "") then
    ("", some "empty redis Key Part not allowed")
  else
    (keyseparator.intercalate allParts, none)

/-! ## the remote sorted set -/

/-- The store behind `redis.UniversalClient`, restricted to the sorted set the tracker
uses. When `reachable` is false every call fails: writes have no effect and reads
yield the zero value of their result type. -/
structure RedisClient where
  /-- Whether calls reach the store. -/
  reachable : Bool
  /-- Members of the sorted set with their scores. -/
  zset : AList (fun _ : String => Int)

/-- The call `ZAdd(ctx, key, &redis.Z{Score: score, Member: member})`: add or update. -/
def RedisClient.ZAdd (c : RedisClient) (score : Int) (member : String) : RedisClient :=
  if c.reachable then { c with zset := c.zset.insert member score } else c

/-- The value `ZScore(ctx, key, member).Val()`: the score, or `0` when the member is
absent or the call failed. -/
def RedisClient.ZScore (c : RedisClient) (member : String) : Int :=
  if c.reachable then (c.zset.lookup member).getD 0 else 0

/-- The call `ZRem(ctx, key, member)`. -/
def RedisClient.ZRem (c : RedisClient) (member : String) : RedisClient :=
  if c.reachable then { c with zset := c.zset.erase member } else c

/-- The call `ZRemRangeByScore(ctx, key, "-inf", max)`: removes every member whose
score is at most `max` (both range ends are inclusive). -/
def RedisClient.ZRemRangeByScore (c : RedisClient) (max : Int) : RedisClient :=
  if c.reachable then
    let swept := c.zset.entries.foldl
      (fun m e => if e.2 ≤ max then m.erase e.1 else m) c.zset
    { c with zset := swept }
  else c

/-! ## the periodic task scheduler -/

/-- A handle on a periodic task, as returned by `Interval`. -/
structure GoInterval where
  /-- Identity of the task. -/
  id : Nat
deriving DecidableEq, Repr

/-- The tasks of the process: `active` lists the started and not yet stopped ones. -/
structure Scheduler where
  /-- A fresh identity. -/
  next : Nat
  /-- Started and not stopped tasks. -/
  active : List Nat
deriving DecidableEq, Repr

/-- Modelled from the spec: `Interval` (the periodic task scheduler of this package) is
not among the sources. It accepts a callback, an interval and a run-immediately flag
and returns a handle on a newly started task. -/
def Interval (s : Scheduler) (_every : Duration) (_immediate : Bool) :
    Scheduler × GoInterval :=
  ({ next := s.next + 1, active := s.next :: s.active }, { id := s.next })

/-- Modelled from the spec: `GoInterval.Stop` is not among the sources. It halts future
invocations and is safe to call once or several times. -/
def GoInterval.Stop (g : GoInterval) (s : Scheduler) : Scheduler :=
  { s with active := s.active.filter (fun i => i ≠ g.id) }

/-! ## nhistory.go -/

/-- A `context.Context`, of which only the identity matters here. -/
inductive Context where
  | background
  | other (id : Nat)
deriving DecidableEq, Repr

end NHistory

/-- The struct `NHistory`. A nil `redisClient` interface is `none`. -/
structure NHistory where
  useHashing : Bool
  entryTimeToLive : NHistory.Duration
  useRedis : Bool
  redisClient : Option NHistory.RedisClient
  redisContext : NHistory.Context
  redisKey : String
  interval : Option NHistory.GoInterval
  hashes : AList (fun _ : String => NHistory.Time)
  hashFunction : String → String

namespace NHistory

/-- The value under which `key` is recorded: `key`, or its hash when hashing is on. -/
def value (history : NHistory) (key : String) : String :=
  if history.useHashing then history.hashFunction key else key

/-- The method `SetCleanInterval`; the task it starts runs `Clean` periodically. -/
def SetCleanInterval (sched : Scheduler) (history : NHistory) (cleanInterval : Duration) :
    Scheduler × NHistory :=
  let sched1 := match history.interval with
    | some i => i.Stop sched
    | none => sched
  let (sched2, i) := Interval sched1 cleanInterval false
  (sched2, { history with interval := some i })

/-- The constructor `NewNHistory`. The argument is a pointer to a client interface:
`none` is the nil pointer, `some none` a pointer to a nil interface. Dereferencing the
nil pointer panics, which is the `.error` result. -/
def NewNHistory (md5 : MD5) (generated : String) (sched : Scheduler) (name : String)
    (timeToLive : Duration) (cleanInterval : Duration)
    (redisClient : Option (Option RedisClient)) (useHashing : Bool) :
    Except String (Scheduler × NHistory) :=
  let created := CreateRedisKey [name] "nhistory" ":"
  let redisKey :=
    if created.2.isSome then "nhistory:" ++ NID generated "nh" 16 else created.1
  match redisClient with
  | none => .error "runtime error: invalid memory address or nil pointer dereference"
  | some client =>
    let history : NHistory :=
      { hashes := ∅
        useHashing := useHashing
        entryTimeToLive := timeToLive
        redisClient := client
        useRedis := redisClient.isSome
        redisKey := redisKey
        redisContext := Context.background
        interval := none
        hashFunction := HashIt md5 }
    .ok (SetCleanInterval sched history cleanInterval)

/-- The method `Add`. -/
def Add (history : NHistory) (key : String) (timeToDie : Time) : NHistory :=
  let value := if history.useHashing then history.hashFunction key else key
  match history.useRedis, history.redisClient with
  | true, some client =>
    let timeScore := float64 timeToDie.Unix
    { history with redisClient := some (client.ZAdd timeScore value) }
  | _, _ =>
    { history with hashes := history.hashes.insert value timeToDie }

/-- The method `SetTimeToLive`. -/
def SetTimeToLive (history : NHistory) (timeToLive : Duration) : NHistory :=
  if timeToLive < 1 then history else { history with entryTimeToLive := timeToLive }

/-- The method `SetRedisContext`. -/
def SetRedisContext (history : NHistory) (ctx : Context) : NHistory :=
  { history with redisContext := ctx }

/-- The method `SetHashFunction`; a nil function is `none`. -/
def SetHashFunction (history : NHistory) (hashFunction : Option (String → String)) :
    NHistory :=
  match hashFunction with
  | none => history
  | some _ => { history with useHashing := true }

/-- The method `UseHashing`. -/
def UseHashing (history : NHistory) (hash : Bool) : NHistory :=
  { history with useHashing := hash }

/-- The method `Has`, with `now` the value of `time.Now()`. -/
def Has (history : NHistory) (now : Time) (key : String) : Bool :=
  let value := if history.useHashing then history.hashFunction key else key
  let oldestAllowed := now.Add (Duration.neg history.entryTimeToLive)
  let minTimeScore := float64 oldestAllowed.Unix
  match history.useRedis, history.redisClient with
  | true, some client => decide (client.ZScore value ≥ minTimeScore)
  | _, _ =>
    match history.hashes.lookup value with
    | some _ => true
    | none => false

/-- The method `Get`: the pair `(setAt, wasFound)`. A score read back is the conversion
of an integer, and `int64(score)` is that integer. -/
def Get (history : NHistory) (key : String) : Time × Bool :=
  let value := if history.useHashing then history.hashFunction key else key
  match history.useRedis, history.redisClient with
  | true, some client =>
    let score := client.ZScore value
    if score > 0 then (unixTime score, true) else (zeroTime, false)
  | _, _ =>
    match history.hashes.lookup value with
    | some v => (v, true)
    | none => (zeroTime, false)

/-- The method `Remove`. -/
def Remove (history : NHistory) (key : String) : NHistory :=
  let value := if history.useHashing then history.hashFunction key else key
  match history.useRedis, history.redisClient with
  | true, some client => { history with redisClient := some (client.ZRem value) }
  | _, _ => { history with hashes := history.hashes.erase value }

/-- The method `Clean`, with `now` the value of `time.Now()`. The local branch ranges
over the entries of the map and deletes the expired ones from it. -/
def Clean (history : NHistory) (now : Time) : NHistory :=
  let oldestAllowed := now.Add (Duration.neg history.entryTimeToLive)
  match history.useRedis, history.redisClient with
  | true, some client =>
    let max := float64 oldestAllowed.Unix
    { history with redisClient := some (client.ZRemRangeByScore max) }
  | _, _ =>
    let swept := history.hashes.entries.foldl
      (fun m e => if Time.Before e.2 oldestAllowed then m.erase e.1 else m)
      history.hashes
    { history with hashes := swept }

/-- The bound `oldestAllowed` that `Has` and `Clean` compute at the instant `now`. -/
def oldestAllowed (history : NHistory) (now : Time) : Time :=
  now.Add (Duration.neg history.entryTimeToLive)

/-- The local backend is in use: the test `useRedis && redisClient != nil` fails. -/
def isLocal (history : NHistory) : Bool :=
  !(history.useRedis && history.redisClient.isSome)

/-- Every call to the remote store succeeds (vacuous without a client). -/
def storeReachable (history : NHistory) : Bool :=
  match history.redisClient with
  | some client => client.reachable
  | none => true

/-! ## trackers to evaluate on -/

/-- The tracker `NewNHistory("orders", ttl, cleanInterval, &client, useHashing)`
returns when `client` is a nil interface: the local backend is in use. -/
def localTracker (ttl : Duration) (useHashing : Bool) : NHistory :=
  { useHashing := useHashing
    entryTimeToLive := ttl
    useRedis := true
    redisClient := none
    redisContext := Context.background
    redisKey := "nhistory:orders"
    interval := some { id := 0 }
    hashes := ∅
    hashFunction := HashIt zeroMD5 }

/-- The tracker `NewNHistory("orders", ttl, cleanInterval, &client, useHashing)`
returns when `client` is connected to a reachable store with an empty sorted set. -/
def remoteTracker (ttl : Duration) (useHashing : Bool) : NHistory :=
  { localTracker ttl useHashing with
    redisClient := some { reachable := true, zset := ∅ } }

/-! ## sequences of calls and the tasks of a tracker -/

/-- A run of `SetCleanInterval` calls, one for each interval of the list, in order. -/
def setCleanIntervals (start : Scheduler × NHistory) (cleanIntervals : List Duration) :
    Scheduler × NHistory :=
  cleanIntervals.foldl (fun st d => SetCleanInterval st.1 st.2 d) start

/-- The identities handed out so far are below `next`, so that the next one is fresh. -/
def Scheduler.wf (s : Scheduler) : Bool :=
  s.active.all (fun i => decide (i < s.next))

/-- The active tasks of `s` that were started since the scheduler was in state `s0`. -/
def startedSince (s0 s : Scheduler) : List Nat :=
  s.active.filter (fun i => decide (s0.next ≤ i))

/-- The tracker holds the task `n`, which is active next to the tasks of `s0` and is the
last one that was started. -/
def holdsCleaner (s0 : Scheduler) (n : Nat) (st : Scheduler × NHistory) : Prop :=
  st.2.interval = some { id := n } ∧ st.1.active = n :: s0.active ∧ st.1.next = n + 1

end NHistory

namespace NHistory

/-! ## lemmas on machine arithmetic -/

/-- The wrapped negation of a positive duration is at most the duration. -/
theorem wrap64_neg_le (d : Int) (hd : 0 < d) : wrap64 (-d) ≤ d := by
  unfold wrap64
  omega

/-- The `int64` negation is the negation, except at `math.MinInt64`. -/
theorem wrap64_neg (d : Int) (h1 : -9223372036854775808 < d) (h2 : d < 9223372036854775808) :
    wrap64 (-d) = -d := by
  unfold wrap64
  omega

/-- Rounding to a multiple of `u` is monotone. -/
theorem roundEven_mono (u a b : Int) (hu : 0 < u) (hab : a ≤ b) :
    roundEven u a ≤ roundEven u b := by
  have hqa := Int.ediv_add_emod a u
  have hqb := Int.ediv_add_emod b u
  have hra := Int.emod_nonneg a (ne_of_gt hu)
  have hrb := Int.emod_nonneg b (ne_of_gt hu)
  have hra2 := Int.emod_lt_of_pos a hu
  have hrb2 := Int.emod_lt_of_pos b hu
  have hq : a / u ≤ b / u := Int.ediv_le_ediv hu hab
  have lo : ∀ n : Int, (n / u) * u ≤ roundEven u n := by
    intro n
    unfold roundEven
    simp only
    split
    · exact le_refl _
    · nlinarith
  have hi : ∀ n : Int, roundEven u n ≤ (n / u + 1) * u := by
    intro n
    unfold roundEven
    simp only
    split
    · nlinarith
    · exact le_refl _
  rcases lt_or_eq_of_le hq with hlt | heq
  · calc roundEven u a ≤ (a / u + 1) * u := hi a
      _ ≤ (b / u) * u := by
        have : a / u + 1 ≤ b / u := hlt
        exact mul_le_mul_of_nonneg_right this (le_of_lt hu)
      _ ≤ roundEven u b := lo b
  · have hr : a % u ≤ b % u := by
      have e1 : a = u * (b / u) + a % u := by rw [← heq]; exact hqa.symm
      have e2 : b = u * (b / u) + b % u := hqb.symm
      linarith
    unfold roundEven
    simp only
    rw [heq]
    by_cases hb : 2 * (b % u) < u ∨ (2 * (b % u) = u ∧ (b / u) % 2 = 0)
    · have ha : 2 * (a % u) < u ∨ (2 * (a % u) = u ∧ (b / u) % 2 = 0) := by
        rcases hb with hb | ⟨hb1, hb2⟩
        · left; linarith
        · rcases lt_or_eq_of_le hr with h | h
          · left; linarith
          · right; exact ⟨by rw [h]; exact hb1, hb2⟩
      rw [if_pos ha, if_pos hb]
    · rw [if_neg hb]
      split
      · nlinarith
      · exact le_refl _

/-- A multiple of `u` rounds to itself. -/
theorem roundEven_mul (u m : Int) (hu : 0 < u) : roundEven u (m * u) = m * u := by
  unfold roundEven
  simp only
  have h1 : m * u % u = 0 := Int.mul_emod_left m u
  have h2 : m * u / u = m := Int.mul_ediv_cancel m (ne_of_gt hu)
  rw [h1, h2, if_pos (Or.inl (by linarith))]


/-- Rounding stays between two multiples of `u` that enclose the number. -/
theorem roundEven_between (u ml mh n : Int) (hu : 0 < u) (h1 : ml * u ≤ n) (h2 : n ≤ mh * u) :
    ml * u ≤ roundEven u n ∧ roundEven u n ≤ mh * u := by
  constructor
  · have := roundEven_mono u _ _ hu h1
    rwa [roundEven_mul u ml hu] at this
  · have := roundEven_mono u _ _ hu h2
    rwa [roundEven_mul u mh hu] at this

/-- A natural number with more than 53 bits lies in the binade of its logarithm. -/
theorem binade (m : Nat) (hm : 9007199254740992 ≤ m) :
    53 ≤ Nat.log 2 m ∧ 2 ^ Nat.log 2 m ≤ m ∧ m < 2 ^ (Nat.log 2 m + 1) := by
  refine ⟨?_, ?_, ?_⟩
  · exact Nat.le_log_of_pow_le (by decide) (by simpa using hm)
  · exact Nat.pow_log_le_self 2 (by omega)
  · exact Nat.lt_pow_succ_log_self (by decide) m

/-- The integer power of two of a binade, split at the 52 bits below the leading one. -/
theorem pow_split (L : Nat) (hL : 53 ≤ L) :
    (2 : Int) ^ L = 4503599627370496 * 2 ^ (L - 52) ∧
    (2 : Int) ^ (L + 1) = 9007199254740992 * 2 ^ (L - 52) ∧
    (0 : Int) < 2 ^ (L - 52) ∧ (9007199254740992 : Int) ≤ 2 ^ L := by
  have e1 : L = 52 + (L - 52) := by omega
  have e2 : L + 1 = 53 + (L - 52) := by omega
  have hpos : (0 : Int) < 2 ^ (L - 52) := by positivity
  have h1 : (2 : Int) ^ L = 4503599627370496 * 2 ^ (L - 52) := by
    conv_lhs => rw [e1, pow_add]
    norm_num
  have h2 : (2 : Int) ^ (L + 1) = 9007199254740992 * 2 ^ (L - 52) := by
    conv_lhs => rw [e2, pow_add]
    norm_num
  refine ⟨h1, h2, hpos, ?_⟩
  have : (2 : Int) ^ 53 ≤ 2 ^ L := pow_le_pow_right₀ (by norm_num) hL
  norm_num at this
  exact this

/-- A large positive integer and its conversion lie in the same binade. -/
theorem float64_pos (n : Int) (hn : 9007199254740992 ≤ n) :
    (2 : Int) ^ Nat.log 2 n.natAbs ≤ n ∧ n < 2 ^ (Nat.log 2 n.natAbs + 1) ∧
    (2 : Int) ^ Nat.log 2 n.natAbs ≤ float64 n ∧
    float64 n ≤ 2 ^ (Nat.log 2 n.natAbs + 1) ∧
    float64 n = roundEven (2 ^ (Nat.log 2 n.natAbs - 52)) n ∧
    53 ≤ Nat.log 2 n.natAbs := by
  have hm : 9007199254740992 ≤ n.natAbs := by omega
  obtain ⟨hL, hlo, hhi⟩ := binade n.natAbs hm
  obtain ⟨s1, s2, hu, _⟩ := pow_split _ hL
  have hcast : (n.natAbs : Int) = n := Int.natAbs_of_nonneg (by omega)
  have hlo2 : (2 : Int) ^ Nat.log 2 n.natAbs ≤ n := by
    have : ((2 ^ Nat.log 2 n.natAbs : Nat) : Int) ≤ (n.natAbs : Int) := by exact_mod_cast hlo
    rw [hcast] at this
    exact_mod_cast this
  have hhi2 : n < (2 : Int) ^ (Nat.log 2 n.natAbs + 1) := by
    have : (n.natAbs : Int) < ((2 ^ (Nat.log 2 n.natAbs + 1) : Nat) : Int) := by
      exact_mod_cast hhi
    rw [hcast] at this
    exact_mod_cast this
  have hf : float64 n = roundEven (2 ^ (Nat.log 2 n.natAbs - 52)) n := by
    unfold float64
    rw [if_neg (by omega)]
  have hb := roundEven_between (2 ^ (Nat.log 2 n.natAbs - 52)) 4503599627370496
    9007199254740992 n hu (by rw [← s1]; exact hlo2) (by rw [← s2]; exact le_of_lt hhi2)
  rw [← s1, ← s2, ← hf] at hb
  exact ⟨hlo2, hhi2, hb.1, hb.2, hf, hL⟩

/-- A large negative integer and its conversion lie in the same binade. -/
theorem float64_neg (n : Int) (hn : n ≤ -9007199254740992) :
    n ≤ -(2 : Int) ^ Nat.log 2 n.natAbs ∧ -(2 : Int) ^ (Nat.log 2 n.natAbs + 1) < n ∧
    float64 n ≤ -(2 : Int) ^ Nat.log 2 n.natAbs ∧
    -(2 : Int) ^ (Nat.log 2 n.natAbs + 1) ≤ float64 n ∧
    float64 n = roundEven (2 ^ (Nat.log 2 n.natAbs - 52)) n ∧
    53 ≤ Nat.log 2 n.natAbs := by
  have hm : 9007199254740992 ≤ n.natAbs := by omega
  obtain ⟨hL, hlo, hhi⟩ := binade n.natAbs hm
  obtain ⟨s1, s2, hu, _⟩ := pow_split _ hL
  have hcast : (n.natAbs : Int) = -n := by
    rw [← Int.natAbs_neg]; exact Int.natAbs_of_nonneg (by omega)
  have hlo2 : n ≤ -(2 : Int) ^ Nat.log 2 n.natAbs := by
    have : ((2 ^ Nat.log 2 n.natAbs : Nat) : Int) ≤ (n.natAbs : Int) := by exact_mod_cast hlo
    rw [hcast] at this
    have h2 : (2 : Int) ^ Nat.log 2 n.natAbs ≤ -n := by exact_mod_cast this
    linarith
  have hhi2 : -(2 : Int) ^ (Nat.log 2 n.natAbs + 1) < n := by
    have : (n.natAbs : Int) < ((2 ^ (Nat.log 2 n.natAbs + 1) : Nat) : Int) := by
      exact_mod_cast hhi
    rw [hcast] at this
    have h2 : -n < (2 : Int) ^ (Nat.log 2 n.natAbs + 1) := by exact_mod_cast this
    linarith
  have hf : float64 n = roundEven (2 ^ (Nat.log 2 n.natAbs - 52)) n := by
    unfold float64
    rw [if_neg (by omega)]
  have hb := roundEven_between (2 ^ (Nat.log 2 n.natAbs - 52)) (-9007199254740992)
    (-4503599627370496) n hu (by rw [neg_mul, ← s2]; exact le_of_lt hhi2)
    (by rw [neg_mul, ← s1]; exact hlo2)
  rw [neg_mul, neg_mul, ← s1, ← s2, ← hf] at hb
  exact ⟨hlo2, hhi2, hb.2, hb.1, hf, hL⟩


/-- Powers of two grow with the exponent. -/
theorem two_pow_mono {a b : Nat} (hab : a ≤ b) : (2 : Int) ^ a ≤ 2 ^ b :=
  pow_le_pow_right₀ (by norm_num) hab

/-- The conversion `float64` is exact on integers of at most 53 bits. -/
theorem float64_exact (n : Int) (h1 : -9007199254740992 ≤ n) (h2 : n ≤ 9007199254740992) :
    float64 n = n := by
  by_cases hs : n.natAbs < 9007199254740992
  · unfold float64
    rw [if_pos hs]
  · rcases le_or_lt 0 n with hpos | hneg
    · have hn : n = 9007199254740992 := by omega
      subst hn
      unfold float64 roundEven
      have hlog : Nat.log 2 (Int.natAbs 9007199254740992) = 53 := by
        have : Int.natAbs 9007199254740992 = 2 ^ 53 := by decide
        rw [this, Nat.log_pow (by decide)]
      rw [if_neg (by decide), hlog]
      decide
    · have hn : n = -9007199254740992 := by omega
      subst hn
      unfold float64 roundEven
      have hlog : Nat.log 2 (Int.natAbs (-9007199254740992)) = 53 := by
        have : Int.natAbs (-9007199254740992) = 2 ^ 53 := by decide
        rw [this, Nat.log_pow (by decide)]
      rw [if_neg (by decide), hlog]
      decide

/-- The conversion `float64` is monotone. -/
theorem float64_mono {a b : Int} (hab : a ≤ b) : float64 a ≤ float64 b := by
  have small : ∀ n : Int, -9007199254740992 < n → n < 9007199254740992 → float64 n = n :=
    fun n h1 h2 => float64_exact n (le_of_lt h1) (le_of_lt h2)
  rcases le_or_lt 9007199254740992 a with hap | hap
  · have hbp : 9007199254740992 ≤ b := le_trans hap hab
    obtain ⟨_, a2, _, a4, a5, aL⟩ := float64_pos a hap
    obtain ⟨b1, _, b3, _, b5, _⟩ := float64_pos b hbp
    have hL : Nat.log 2 a.natAbs ≤ Nat.log 2 b.natAbs :=
      Nat.log_mono_right (by omega)
    rcases lt_or_eq_of_le hL with hlt | heq
    · exact le_trans a4 (le_trans (two_pow_mono hlt) b3)
    · rw [a5, b5, heq]
      exact roundEven_mono _ _ _ (pow_split _ (heq ▸ aL)).2.2.1 hab
  · rcases le_or_lt a (-9007199254740992) with han | han
    · obtain ⟨_, a2, a3, _, a5, aL⟩ := float64_neg a han
      have hpa := (pow_split _ aL).2.2.2
      rcases le_or_lt b (-9007199254740992) with hbn | hbn
      · obtain ⟨b1, _, _, b4, b5, bL⟩ := float64_neg b hbn
        have hL : Nat.log 2 b.natAbs ≤ Nat.log 2 a.natAbs :=
          Nat.log_mono_right (by omega)
        rcases lt_or_eq_of_le hL with hlt | heq
        · have := two_pow_mono (show Nat.log 2 b.natAbs + 1 ≤ Nat.log 2 a.natAbs from hlt)
          linarith
        · rw [a5, b5, heq]
          exact roundEven_mono _ _ _ (pow_split _ aL).2.2.1 hab
      · rcases le_or_lt 9007199254740992 b with hbp | hbp
        · obtain ⟨_, _, b3, _, _, bL⟩ := float64_pos b hbp
          have hpb := (pow_split _ bL).2.2.2
          linarith
        · rw [small b hbn hbp]
          linarith
    · rw [small a han hap]
      rcases le_or_lt 9007199254740992 b with hbp | hbp
      · obtain ⟨_, _, b3, _, _, bL⟩ := float64_pos b hbp
        have hpb := (pow_split _ bL).2.2.2
        linarith
      · have hbn : -9007199254740992 < b := lt_of_lt_of_le han hab
        rw [small b hbn hbp]
        exact hab

/-! ## lemmas on the map and on time -/

/-- Looking a key up after a sweep over a list of entries that erases the flagged ones. -/
theorem lookup_foldl_erase (p : (Σ _ : String, Int) → Prop) [DecidablePred p]
    (es : List (Σ _ : String, Int)) (m : AList (fun _ : String => Int)) (k : String) :
    AList.lookup k (es.foldl (fun m e => if p e then m.erase e.1 else m) m) =
      if (∃ e ∈ es, e.1 = k ∧ p e) then none else AList.lookup k m := by
  induction es generalizing m with
  | nil => simp
  | cons e es ih =>
    rw [List.foldl_cons, ih]
    by_cases hes : ∃ e ∈ es, e.1 = k ∧ p e
    · have : ∃ x ∈ e :: es, x.1 = k ∧ p x := by
        obtain ⟨x, hx, h⟩ := hes
        exact ⟨x, List.mem_cons_of_mem _ hx, h⟩
      rw [if_pos hes, if_pos this]
    · rw [if_neg hes]
      by_cases hp : p e
      · rw [if_pos hp]
        by_cases hk : e.1 = k
        · have : ∃ x ∈ e :: es, x.1 = k ∧ p x := ⟨e, List.mem_cons_self _ _, hk, hp⟩
          rw [if_pos this, ← hk, AList.lookup_erase]
        · have : ¬ ∃ x ∈ e :: es, x.1 = k ∧ p x := by
            rintro ⟨x, hx, h1, h2⟩
            rcases List.mem_cons.1 hx with rfl | hx
            · exact hk h1
            · exact hes ⟨x, hx, h1, h2⟩
          rw [if_neg this, AList.lookup_erase_ne (Ne.symm hk)]
      · have : ¬ ∃ x ∈ e :: es, x.1 = k ∧ p x := by
          rintro ⟨x, hx, h1, h2⟩
          rcases List.mem_cons.1 hx with rfl | hx
          · exact hp h2
          · exact hes ⟨x, hx, h1, h2⟩
        rw [if_neg hp, if_neg this]

/-- Looking a key up after a sweep of a map over its own entries: an entry is kept
exactly when it is not flagged, and none appears. -/
theorem lookup_sweep (p : (Σ _ : String, Int) → Prop) [DecidablePred p]
    (m : AList (fun _ : String => Int)) (k : String) :
    AList.lookup k (m.entries.foldl (fun m e => if p e then m.erase e.1 else m) m) =
      match AList.lookup k m with
      | some v => if p ⟨k, v⟩ then none else some v
      | none => none := by
  rw [lookup_foldl_erase]
  cases hl : AList.lookup k m with
  | none =>
    simp
  | some v =>
    have hmem : (⟨k, v⟩ : Σ _ : String, Int) ∈ m.entries := AList.mem_lookup_iff.1 hl
    by_cases hp : p ⟨k, v⟩
    · have : ∃ e ∈ m.entries, e.1 = k ∧ p e := ⟨⟨k, v⟩, hmem, rfl, hp⟩
      simp only [if_pos this, if_pos hp]
    · have : ¬ ∃ e ∈ m.entries, e.1 = k ∧ p e := by
        rintro ⟨⟨k', v'⟩, hx, h1, h2⟩
        simp only at h1
        subst h1
        have : v' ∈ AList.lookup k' m := AList.mem_lookup_iff.2 hx
        rw [hl] at this
        cases this
        exact hp h2
      simp only [if_neg this, if_neg hp, hl]

/-- Erasing a key that is not in the map changes nothing. -/
theorem erase_absent (m : AList (fun _ : String => Int)) (k : String)
    (hk : AList.lookup k m = none) : m.erase k = m := by
  apply AList.ext
  show List.kerase k m.entries = m.entries
  exact List.kerase_of_not_mem_keys (AList.mem_keys.not.1 (AList.lookup_eq_none.1 hk))

/-- The bound of a tracker whose ttl is an `int64` other than `math.MinInt64` is
`now - ttl`. -/
theorem oldestAllowed_eq (h : NHistory) (now : Time)
    (h1 : -9223372036854775808 < h.entryTimeToLive)
    (h2 : h.entryTimeToLive < 9223372036854775808) :
    oldestAllowed h now = now - h.entryTimeToLive := by
  unfold oldestAllowed Time.Add Duration.neg
  rw [wrap64_neg _ h1 h2]
  exact (sub_eq_add_neg _ _).symm

/-- The bound grows with the instant. -/
theorem oldestAllowed_mono (h : NHistory) {now1 now2 : Time} (hle : now1 ≤ now2) :
    oldestAllowed h now1 ≤ oldestAllowed h now2 := by
  unfold oldestAllowed Time.Add
  linarith

/-- The map of a local tracker after `Clean`, key by key. -/
theorem lookup_Clean_local (h : NHistory) (now : Time) (hl : isLocal h = true) (k : String) :
    AList.lookup k (Clean h now).hashes =
      match AList.lookup k h.hashes with
      | some v => if v < oldestAllowed h now then none else some v
      | none => none := by
  obtain ⟨uh, ttl, ur, rc, ctx, rk, iv, hs, hf⟩ := h
  have hb : ∀ v : Int, (Time.Before v (Time.Add now (Duration.neg ttl)) = true) ↔
      v < Time.Add now (Duration.neg ttl) := by
    intro v
    simp [Time.Before]
  have key : AList.lookup k (hs.entries.foldl
      (fun m e => if Time.Before e.2 (Time.Add now (Duration.neg ttl)) = true
        then m.erase e.1 else m) hs) =
      match AList.lookup k hs with
      | some v => if v < Time.Add now (Duration.neg ttl) then none else some v
      | none => none := by
    rw [lookup_sweep]
    cases AList.lookup k hs with
    | none => rfl
    | some v =>
      by_cases hv : v < Time.Add now (Duration.neg ttl)
      · simp only [if_pos hv, if_pos ((hb v).2 hv)]
      · simp only [if_neg hv, if_neg (fun hc => hv ((hb v).1 hc))]
  cases ur <;> cases rc
  · exact key
  · exact key
  · exact key
  · exact absurd hl (by simp [isLocal])

/-- Whole seconds are monotone in the instant. -/
theorem Unix_mono {t u : Time} (htu : t ≤ u) : Time.Unix t ≤ Time.Unix u :=
  Int.ediv_le_ediv (by decide) htu

/-- The length of `HashIt s` is the length of `s` plus the 16 bytes of the checksum. -/
theorem HashIt_length (md5 : MD5) (s : String) : (HashIt md5 s).length = s.length + 16 := by
  simp [HashIt, String.length_append, md5.size_eq]

/-- The tracker `localTracker` is what the constructor returns for a pointer to a nil
client interface. -/
theorem NewNHistory_nil_interface (ttl cleanInterval : Duration) (useHashing : Bool) :
    NewNHistory zeroMD5 "" ⟨0, []⟩ "orders" ttl cleanInterval (some none) useHashing
      = .ok (⟨1, [0]⟩, localTracker ttl useHashing) := rfl

/-- The tracker `remoteTracker` is what the constructor returns for a client of a
reachable, empty store. -/
theorem NewNHistory_client (ttl cleanInterval : Duration) (useHashing : Bool) :
    NewNHistory zeroMD5 "" ⟨0, []⟩ "orders" ttl cleanInterval
        (some (some { reachable := true, zset := ∅ })) useHashing
      = .ok (⟨1, [0]⟩, remoteTracker ttl useHashing) := rfl

end NHistory

namespace NHistory

/-! ## the operations on the local backend -/

/-- On the local backend `Add` writes the map. -/
theorem Add_local (h : NHistory) (k : String) (t : Time) (hl : isLocal h = true) :
    Add h k t = { h with hashes := h.hashes.insert (value h k) t } := by
  obtain ⟨uh, ttl, ur, rc, ctx, rk, iv, hs, hf⟩ := h
  cases ur <;> cases rc <;> first | rfl | simp [isLocal] at hl

/-- On the local backend `Remove` deletes from the map. -/
theorem Remove_local (h : NHistory) (k : String) (hl : isLocal h = true) :
    Remove h k = { h with hashes := h.hashes.erase (value h k) } := by
  obtain ⟨uh, ttl, ur, rc, ctx, rk, iv, hs, hf⟩ := h
  cases ur <;> cases rc <;> first | rfl | simp [isLocal] at hl

/-- On the local backend `Has` tests the presence of the key in the map. -/
theorem Has_local (h : NHistory) (now : Time) (k : String) (hl : isLocal h = true) :
    Has h now k = (AList.lookup (value h k) h.hashes).isSome := by
  obtain ⟨uh, ttl, ur, rc, ctx, rk, iv, hs, hf⟩ := h
  cases ur <;> cases rc <;>
    first
    | (simp only [Has, value]; cases AList.lookup (if uh = true then hf k else k) hs <;> rfl)
    | simp [isLocal] at hl

/-- On the local backend `Get` reads the map. -/
theorem Get_local (h : NHistory) (k : String) (hl : isLocal h = true) :
    Get h k = match AList.lookup (value h k) h.hashes with
      | some v => (v, true)
      | none => (zeroTime, false) := by
  obtain ⟨uh, ttl, ur, rc, ctx, rk, iv, hs, hf⟩ := h
  cases ur <;> cases rc <;> first | rfl | simp [isLocal] at hl

/-- The operation `Clean` changes nothing but the stored entries. -/
theorem Clean_frame (h : NHistory) (now : Time) :
    (Clean h now).useHashing = h.useHashing ∧
    (Clean h now).hashFunction = h.hashFunction ∧
    (Clean h now).entryTimeToLive = h.entryTimeToLive ∧
    (Clean h now).useRedis = h.useRedis ∧
    (Clean h now).redisClient.isSome = h.redisClient.isSome ∧
    (Clean h now).interval = h.interval ∧
    (Clean h now).redisKey = h.redisKey ∧
    (Clean h now).redisContext = h.redisContext := by
  obtain ⟨uh, ttl, ur, rc, ctx, rk, iv, hs, hf⟩ := h
  cases ur <;> cases rc <;> simp [Clean]

/-- The operation `Clean` keeps the backend and the recorded value of every key. -/
theorem Clean_isLocal (h : NHistory) (now : Time) :
    isLocal (Clean h now) = isLocal h ∧ ∀ k, value (Clean h now) k = value h k := by
  obtain ⟨h1, h2, _, h4, h5, _⟩ := Clean_frame h now
  simp only [isLocal, value, h1, h2, h4, h5]
  exact ⟨trivial, fun _ => trivial⟩

example (now ttl : Time) : Time.Add now (-ttl) ≤ Time.Add now ttl ↔ 0 ≤ ttl := by
  unfold Time.Add
  constructor <;> intro h <;> linarith

end NHistory

namespace NHistory

/-! ## Add, Has, Get, Clean -/

/-- C1: on a tracker whose ttl is `d > 0`, with hashing on or off, `Add(k, now+d)`
followed by `Has(k)` evaluated at `now` returns true, on the local backend and on the
remote backend (whose store is reachable, so that the write is read back). -/
theorem Has_after_Add (h : NHistory) (k : String) (d : Duration) (now : Time)
    (hd : 0 < d) (httl : h.entryTimeToLive = d) (hup : storeReachable h = true) :
    Has (Add h k (now.Add d)) now k = true := by
  by_cases hl : isLocal h = true
  · rw [Has_local _ _ _ (by rw [Add_local _ _ _ hl]; exact hl), Add_local _ _ _ hl]
    show (AList.lookup (value h k) (h.hashes.insert (value h k) (now.Add d))).isSome = true
    rw [AList.lookup_insert]
    rfl
  · obtain ⟨uh, ttl, ur, rc, ctx, rk, iv, hs, hf⟩ := h
    simp only at httl
    subst httl
    have hle : float64 (Time.Unix (Time.Add now (Duration.neg ttl))) ≤
        float64 (Time.Unix (Time.Add now ttl)) := by
      apply float64_mono
      apply Unix_mono
      have := wrap64_neg_le ttl hd
      unfold Time.Add Duration.neg
      linarith
    cases ur <;> cases rc with
    | none => simp [isLocal] at hl
    | some c =>
      first
      | (simp [isLocal] at hl; done)
      | (have hc : c.reachable = true := hup
         simpa [Has, Add, RedisClient.ZScore, RedisClient.ZAdd, hc, AList.lookup_insert]
           using hle)

/-- Witness of C1 on the remote backend: ttl 2s, `Add("order-42", now+2s)` at
`now = 1000s`. -/
theorem Has_after_Add_witness :
    Has (Add (remoteTracker (2 * second) false) "order-42"
      (Time.Add (1000 * second) (2 * second))) (1000 * second) "order-42" = true :=
  Has_after_Add (remoteTracker (2 * second) false) "order-42" (2 * second)
    (1000 * second) (by decide) rfl rfl

/-- C2 (the code departs from it): on the local backend `Has` only tests that the key
is in the map. A tracker with ttl 2s that holds "k" with recorded time 0 answers
`Has("k") = true` at `now = 10s`, although the recorded time is older than
`now - ttl = 8s`. -/
theorem Has_local_expired_entry :
    isLocal (Add (localTracker (2 * second) false) "k" 0) = true ∧
    AList.lookup "k" (Add (localTracker (2 * second) false) "k" 0).hashes = some 0 ∧
    ¬ ((0 : Time) ≥ 10 * second - (localTracker (2 * second) false).entryTimeToLive) ∧
    Has (Add (localTracker (2 * second) false) "k" 0) (10 * second) "k" = true := by
  decide

/-- C3 (the code departs from it): at the scenario of the specification, ttl 2s, local
backend, `Add("order-42", t0+2s)` at `t0 = 1000s`, `Clean` at `t0+3s`, which is past
the time to die `t0+2s`, the entry is still there: `Has` returns true and `Get` returns
the recorded time. `Clean` compares the recorded time to die with `now - ttl`, so the
entry is kept until `t0+4s`. -/
theorem Clean_after_ttl_keeps_entry :
    (0 : Duration) < 2 * second ∧
    Time.Add (1000 * second) (2 * second) < 1003 * second ∧
    Has (Clean (Add (localTracker (2 * second) false) "order-42"
        (Time.Add (1000 * second) (2 * second))) (1003 * second))
      (1003 * second) "order-42" = true ∧
    Get (Clean (Add (localTracker (2 * second) false) "order-42"
        (Time.Add (1000 * second) (2 * second))) (1003 * second)) "order-42"
      = (1002 * second, true) := by
  decide

end NHistory

namespace NHistory

/-- C4: on the local backend, for a ttl that is an `int64` other than `math.MinInt64`
(whose negation wraps around), `Clean` at `now` removes exactly the entries whose
recorded time is strictly older than `now - ttl`. An entry with time `< now - ttl` is
absent afterwards; every other entry, the one recorded at `now - ttl` exactly included,
is still present with its time unchanged; a key that was absent stays absent. -/
theorem Clean_local_exact (h : NHistory) (now : Time) (hl : isLocal h = true)
    (hmin : -9223372036854775808 < h.entryTimeToLive)
    (hmax : h.entryTimeToLive < 9223372036854775808) :
    (∀ k v, AList.lookup k h.hashes = some v → v < now - h.entryTimeToLive →
      AList.lookup k (Clean h now).hashes = none) ∧
    (∀ k v, AList.lookup k h.hashes = some v → ¬ v < now - h.entryTimeToLive →
      AList.lookup k (Clean h now).hashes = some v) ∧
    (∀ k, AList.lookup k h.hashes = some (now - h.entryTimeToLive) →
      AList.lookup k (Clean h now).hashes = some (now - h.entryTimeToLive)) ∧
    (∀ k, AList.lookup k h.hashes = none → AList.lookup k (Clean h now).hashes = none) := by
  have hold := oldestAllowed_eq h now hmin hmax
  refine ⟨?_, ?_, ?_, ?_⟩
  · intro k v hk hv
    rw [lookup_Clean_local h now hl k, hk, hold]
    exact if_pos hv
  · intro k v hk hv
    rw [lookup_Clean_local h now hl k, hk, hold]
    exact if_neg hv
  · intro k hk
    rw [lookup_Clean_local h now hl k, hk, hold]
    exact if_neg (lt_irrefl _)
  · intro k hk
    rw [lookup_Clean_local h now hl k, hk]

/-- Witness of C4: a local tracker with ttl 2s holding "old" (recorded at 7s), "edge"
(at 8s) and "new" (at 9s), cleaned at `now = 10s`. -/
theorem Clean_local_exact_witness :
    isLocal (Add (Add (Add (localTracker (2 * second) false) "old" (7 * second))
      "edge" (8 * second)) "new" (9 * second)) = true ∧
    -9223372036854775808 < (Add (Add (Add (localTracker (2 * second) false)
      "old" (7 * second)) "edge" (8 * second)) "new" (9 * second)).entryTimeToLive ∧
    (Add (Add (Add (localTracker (2 * second) false) "old" (7 * second))
      "edge" (8 * second)) "new" (9 * second)).entryTimeToLive < 9223372036854775808 ∧
    AList.lookup "old" (Clean (Add (Add (Add (localTracker (2 * second) false)
      "old" (7 * second)) "edge" (8 * second)) "new" (9 * second))
      (10 * second)).hashes = none ∧
    AList.lookup "edge" (Clean (Add (Add (Add (localTracker (2 * second) false)
      "old" (7 * second)) "edge" (8 * second)) "new" (9 * second))
      (10 * second)).hashes = some (8 * second) :=
  ⟨by decide, by decide, by decide,
   (Clean_local_exact (Add (Add (Add (localTracker (2 * second) false)
      "old" (7 * second)) "edge" (8 * second)) "new" (9 * second))
      (10 * second) (by decide) (by decide) (by decide)).1 "old" (7 * second)
      (by decide) (by decide),
   (Clean_local_exact (Add (Add (Add (localTracker (2 * second) false)
      "old" (7 * second)) "edge" (8 * second)) "new" (9 * second))
      (10 * second) (by decide) (by decide) (by decide)).2.1 "edge" (8 * second)
      (by decide) (by decide)⟩

/-- The corner that C4 leaves out: with a ttl of `math.MinInt64` the negation wraps
around, the bound is `now - 2^63` nanoseconds, and `Clean` keeps an entry recorded at
`now`. -/
theorem Clean_local_MinInt64 :
    oldestAllowed (localTracker (-9223372036854775808) false) (10 * second)
      = 10 * second - 9223372036854775808 ∧
    AList.lookup "k" (Clean (Add (localTracker (-9223372036854775808) false) "k"
      (10 * second)) (10 * second)).hashes = some (10 * second) := by
  decide

/-- C5: on the local backend `Get` ignores expiry. After `Add(k, t)`, `Get(k)` returns
`(t, true)` whatever the ttl of the tracker, also after the ttl has been changed; `Get`
reads no clock, and its result on any tracker is the same for every value of the ttl. -/
theorem Get_ignores_expiry (h : NHistory) (k : String) (t : Time) (ttl : Duration)
    (hl : isLocal h = true) :
    Get (Add h k t) k = (t, true) ∧
    Get (SetTimeToLive (Add h k t) ttl) k = (t, true) ∧
    Get { Add h k t with entryTimeToLive := ttl } k = (t, true) ∧
    (∀ (g : NHistory) (key : String),
      Get { g with entryTimeToLive := ttl } key = Get g key) := by
  have h1 : Get (Add h k t) k = (t, true) := by
    rw [Get_local _ _ (by rw [Add_local _ _ _ hl]; exact hl), Add_local _ _ _ hl]
    show (match AList.lookup (value h k) (h.hashes.insert (value h k) t) with
      | some v => (v, true)
      | none => (zeroTime, false)) = (t, true)
    rw [AList.lookup_insert]
  have h4 : ∀ (g : NHistory) (key : String),
      Get { g with entryTimeToLive := ttl } key = Get g key := fun _ _ => rfl
  refine ⟨h1, ?_, ?_, h4⟩
  · unfold SetTimeToLive
    split
    · exact h1
    · rw [h4]; exact h1
  · rw [h4]; exact h1

/-- Witness of C5: ttl 2s, `Add("order-42", 1000s)`; `Get` returns the recorded time. -/
theorem Get_ignores_expiry_witness :
    isLocal (localTracker (2 * second) false) = true ∧
    Get (Add (localTracker (2 * second) false) "order-42" (1000 * second)) "order-42"
      = (1000 * second, true) :=
  ⟨rfl, (Get_ignores_expiry (localTracker (2 * second) false) "order-42"
    (1000 * second) second rfl).1⟩

end NHistory

namespace NHistory

/-! ## last write, Remove, construction, hashing -/

/-- C6 as stated fails on the remote backend: after `Add("k", 7s)` and
`Add("k", 1.5s)`, `Get("k")` returns the instant 1s, the recorded time cut to whole
seconds, and not 1.5s. -/
theorem Get_remote_not_last_write :
    isLocal (remoteTracker (2 * second) false) = false ∧
    Get (Add (Add (remoteTracker (2 * second) false) "k" (7 * second)) "k" 1500000000) "k"
      = (1000000000, true) ∧
    Get (Add (Add (remoteTracker (2 * second) false) "k" (7 * second)) "k" 1500000000) "k"
      ≠ (1500000000, true) := by
  decide

/-- C6, amended: the last write wins on both backends. After `Add(k, t1)` and
`Add(k, t2)`, `Get(k)` depends on `t2` only: on the local backend it returns
`(t2, true)`; on the remote backend (store reachable), for `t2` with
`0 < t2.Unix() ≤ 2^53`, it returns `t2` cut to whole seconds, with found = true. -/
theorem last_write_wins (h : NHistory) (k : String) (t1 t2 : Time)
    (hup : storeReachable h = true) :
    (isLocal h = true → Get (Add (Add h k t1) k t2) k = (t2, true)) ∧
    (isLocal h = false → 0 < t2.Unix → t2.Unix ≤ 9007199254740992 →
      Get (Add (Add h k t1) k t2) k = (unixTime t2.Unix, true)) := by
  refine ⟨?_, ?_⟩
  · intro hl
    have hl1 : isLocal (Add h k t1) = true := by rw [Add_local _ _ _ hl]; exact hl
    have hl2 : isLocal (Add (Add h k t1) k t2) = true := by
      rw [Add_local _ _ _ hl1]; exact hl1
    rw [Get_local _ _ hl2, Add_local _ _ _ hl1]
    show (match AList.lookup (value (Add h k t1) k)
        ((Add h k t1).hashes.insert (value (Add h k t1) k) t2) with
      | some v => (v, true)
      | none => (zeroTime, false)) = (t2, true)
    rw [AList.lookup_insert]
  · intro hl hpos hbound
    have hex : float64 t2.Unix = t2.Unix := float64_exact _ (by linarith) hbound
    obtain ⟨uh, ttl, ur, rc, ctx, rk, iv, hs, hf⟩ := h
    cases ur <;> cases rc with
    | none => simp [isLocal] at hl
    | some c =>
      first
      | (simp [isLocal] at hl; done)
      | (have hc : c.reachable = true := hup
         simp [Get, Add, RedisClient.ZScore, RedisClient.ZAdd, hc, AList.lookup_insert,
           hex, hpos])

/-- Witness of the amended C6 on the remote backend: `Add("k", 7s)`, `Add("k", 1.5s)`. -/
theorem last_write_wins_witness :
    storeReachable (remoteTracker (2 * second) false) = true ∧
    isLocal (remoteTracker (2 * second) false) = false ∧
    0 < Time.Unix 1500000000 ∧ Time.Unix 1500000000 ≤ 9007199254740992 ∧
    Get (Add (Add (remoteTracker (2 * second) false) "k" (7 * second)) "k" 1500000000) "k"
      = (unixTime (Time.Unix 1500000000), true) :=
  ⟨rfl, rfl, by decide, by decide,
   (last_write_wins (remoteTracker (2 * second) false) "k" (7 * second) 1500000000 rfl).2
     rfl (by decide) (by decide)⟩

/-- C7: on the local backend `Remove(k)` deletes exactly the entry stored under the
(possibly hashed) value of `k`. Afterwards `Get(k)` is not-found and `Has(k)` is false,
the entry under every other value is unchanged, all the other fields of the tracker
are unchanged, and when `k` was not present the whole tracker is unchanged. -/
theorem Remove_local_exact (h : NHistory) (k : String) (hl : isLocal h = true) :
    Get (Remove h k) k = (zeroTime, false) ∧
    (∀ now, Has (Remove h k) now k = false) ∧
    (∀ v, v ≠ value h k →
      AList.lookup v (Remove h k).hashes = AList.lookup v h.hashes) ∧
    Remove h k = { h with hashes := (Remove h k).hashes } ∧
    (AList.lookup (value h k) h.hashes = none → Remove h k = h) := by
  have hl1 : isLocal (Remove h k) = true := by rw [Remove_local _ _ hl]; exact hl
  have hv : value (Remove h k) k = value h k := by rw [Remove_local _ _ hl]; rfl
  have hlk : AList.lookup (value h k) (Remove h k).hashes = none := by
    rw [Remove_local _ _ hl]; exact AList.lookup_erase _ _
  refine ⟨?_, ?_, ?_, ?_, ?_⟩
  · rw [Get_local _ _ hl1, hv, hlk]
  · intro now
    rw [Has_local _ _ _ hl1, hv, hlk]
    rfl
  · intro v hne
    rw [Remove_local _ _ hl]
    exact AList.lookup_erase_ne hne
  · rw [Remove_local _ _ hl]
  · intro habs
    rw [Remove_local _ _ hl]
    show { h with hashes := h.hashes.erase (value h k) } = h
    rw [erase_absent _ _ habs]

/-- Witness of C7: removing "a" from a local tracker that holds "a" and "b". -/
theorem Remove_local_exact_witness :
    isLocal (Add (Add (localTracker (2 * second) false) "a" second) "b" second) = true ∧
    Get (Remove (Add (Add (localTracker (2 * second) false) "a" second) "b" second) "a") "a"
      = (zeroTime, false) :=
  ⟨by decide,
   (Remove_local_exact (Add (Add (localTracker (2 * second) false) "a" second) "b" second)
     "a" (by decide)).1⟩

/-- C8 (the code departs from it): with a nil remote-store handle the constructor
dereferences the nil pointer and panics, for every name, ttl, clean interval and
hashing flag; no tracker is returned. -/
theorem NewNHistory_nil_handle (md5 : MD5) (generated : String) (sched : Scheduler)
    (name : String) (timeToLive cleanInterval : Duration) (useHashing : Bool) :
    NewNHistory md5 generated sched name timeToLive cleanInterval none useHashing
      = .error "runtime error: invalid memory address or nil pointer dereference" :=
  rfl

/-- C9: on the local backend with hashing enabled, two distinct keys with the same
hash are indistinguishable. After `Add(k1, t)`, `Has(k2)` returns true and `Get(k2)`
returns `(t, true)`; `Remove(k2)` removes the entry added for `k1`. -/
theorem hash_collision (h : NHistory) (k1 k2 : String) (t now : Time)
    (hl : isLocal h = true) (hh : h.useHashing = true) (_hne : k1 ≠ k2)
    (hc : h.hashFunction k1 = h.hashFunction k2) :
    Has (Add h k1 t) now k2 = true ∧
    Get (Add h k1 t) k2 = (t, true) ∧
    AList.lookup (h.hashFunction k1) (Add h k1 t).hashes = some t ∧
    AList.lookup (h.hashFunction k1) (Remove (Add h k1 t) k2).hashes = none ∧
    Has (Remove (Add h k1 t) k2) now k1 = false ∧
    Get (Remove (Add h k1 t) k2) k1 = (zeroTime, false) := by
  have hv : ∀ g : NHistory, g.useHashing = true → g.hashFunction = h.hashFunction →
      ∀ key, value g key = h.hashFunction key := by
    intro g hg hf key
    simp [value, hg, hf]
  have hl1 : isLocal (Add h k1 t) = true := by rw [Add_local _ _ _ hl]; exact hl
  have hv1 : ∀ key, value (Add h k1 t) key = h.hashFunction key := by
    rw [Add_local _ _ _ hl]; exact hv _ hh rfl
  have hlk : AList.lookup (h.hashFunction k1) (Add h k1 t).hashes = some t := by
    rw [Add_local _ _ _ hl, hv h hh rfl]; exact AList.lookup_insert _
  have hl2 : isLocal (Remove (Add h k1 t) k2) = true := by
    rw [Remove_local _ _ hl1]; exact hl1
  have hv2 : ∀ key, value (Remove (Add h k1 t) k2) key = h.hashFunction key := by
    rw [Remove_local _ _ hl1, Add_local _ _ _ hl]; exact hv _ hh rfl
  have hrm : AList.lookup (h.hashFunction k1) (Remove (Add h k1 t) k2).hashes = none := by
    rw [Remove_local _ _ hl1, hv1, ← hc]; exact AList.lookup_erase _ _
  refine ⟨?_, ?_, hlk, hrm, ?_, ?_⟩
  · rw [Has_local _ _ _ hl1, hv1, ← hc, hlk]; rfl
  · rw [Get_local _ _ hl1, hv1, ← hc, hlk]
  · rw [Has_local _ _ _ hl2, hv2, hrm]; rfl
  · rw [Get_local _ _ hl2, hv2, hrm]

/-- Witness of C9: a local tracker whose hash function sends every key to "x"; the keys
"a" and "b" collide. -/
theorem hash_collision_witness :
    "a" ≠ "b" ∧
    Has (Add { localTracker (2 * second) true with hashFunction := fun _ => "x" }
      "a" second) (2 * second) "b" = true :=
  ⟨by decide,
   (hash_collision { localTracker (2 * second) true with hashFunction := fun _ => "x" }
     "a" "b" second (2 * second) rfl rfl (by decide) rfl).1⟩

/-- C10 (the code departs from it): `HashIt` does not collapse its input to a digest of
fixed size. The result is the input followed by the 16 bytes of the checksum, so the
empty string gives 16 bytes and "a" gives 17. -/
theorem HashIt_not_fixed_size (md5 : MD5) :
    (HashIt md5 "").length = 16 ∧ (HashIt md5 "a").length = 17 ∧
    (HashIt md5 "").length ≠ (HashIt md5 "a").length := by
  have h0 : (HashIt md5 "").length = 16 := by rw [HashIt_length]; rfl
  have h1 : (HashIt md5 "a").length = 17 := by rw [HashIt_length]; rfl
  refine ⟨h0, h1, ?_⟩
  rw [h0, h1]
  decide

end NHistory

namespace NHistory

/-! ## the setters -/

/-- C11 (the code departs from it): `SetHashFunction(f)` with a non-nil `f` turns hashing
on but never stores `f`; the tracker keeps the hash function it had. With the function
that sends every key to "x" passed to a fresh local tracker, `Add("a", 1s)` records the
entry under `HashIt("a")` and not under "x", and `Has("b")` is false although "a" and
"b" have the same image under the function passed. A nil function leaves the tracker
unchanged. -/
theorem SetHashFunction_keeps_old_function (h : NHistory) (f : String → String) :
    (SetHashFunction h (some f)).hashFunction = h.hashFunction ∧
    (SetHashFunction h (some f)).useHashing = true ∧
    SetHashFunction h none = h ∧
    AList.lookup "x" (Add (SetHashFunction (localTracker (2 * second) false)
      (some (fun _ => "x"))) "a" second).hashes = none ∧
    AList.lookup (HashIt zeroMD5 "a") (Add (SetHashFunction (localTracker (2 * second) false)
      (some (fun _ => "x"))) "a" second).hashes = some second ∧
    Has (Add (SetHashFunction (localTracker (2 * second) false)
      (some (fun _ => "x"))) "a" second) (2 * second) "b" = false := by
  refine ⟨rfl, rfl, rfl, ?_, ?_, ?_⟩ <;> decide

/-- C12: `SetTimeToLive(d)` leaves the tracker unchanged for every `d ≤ 0` and sets the
ttl to exactly `d` for every `d > 0`; in both cases the stored entries, the hashing
flag and function, the backend selection and the cleaner handle are unchanged. -/
theorem SetTimeToLive_soft_fail (h : NHistory) (d : Duration) :
    (d ≤ 0 → SetTimeToLive h d = h) ∧
    (0 < d → (SetTimeToLive h d).entryTimeToLive = d) ∧
    (SetTimeToLive h d).hashes = h.hashes ∧
    (SetTimeToLive h d).useHashing = h.useHashing ∧
    (SetTimeToLive h d).hashFunction = h.hashFunction ∧
    (SetTimeToLive h d).useRedis = h.useRedis ∧
    (SetTimeToLive h d).redisClient = h.redisClient ∧
    isLocal (SetTimeToLive h d) = isLocal h ∧
    (SetTimeToLive h d).interval = h.interval := by
  by_cases hd : d < 1
  · have he : SetTimeToLive h d = h := if_pos hd
    rw [he]
    refine ⟨fun _ => rfl, ?_, rfl, rfl, rfl, rfl, rfl, rfl, rfl⟩
    intro hpos
    exact absurd (Int.lt_add_one_iff.1 (show d < 0 + 1 from hd)) (not_le.2 hpos)
  · have he : SetTimeToLive h d = { h with entryTimeToLive := d } := if_neg hd
    rw [he]
    refine ⟨?_, fun _ => rfl, rfl, rfl, rfl, rfl, rfl, rfl, rfl⟩
    intro hle
    exact absurd (show d < 0 + 1 from Int.lt_add_one_iff.2 hle) hd

/-- Witness of C12: on a tracker with ttl 2s, `SetTimeToLive(0)` changes nothing and
`SetTimeToLive(5s)` sets the ttl to 5s. -/
theorem SetTimeToLive_soft_fail_witness :
    ((0 : Duration) ≤ 0 ∧
      SetTimeToLive (localTracker (2 * second) false) 0 = localTracker (2 * second) false) ∧
    ((0 : Duration) < 5 * second ∧
      (SetTimeToLive (localTracker (2 * second) false) (5 * second)).entryTimeToLive
        = 5 * second) :=
  ⟨⟨le_refl _, (SetTimeToLive_soft_fail (localTracker (2 * second) false) 0).1 (le_refl _)⟩,
   ⟨by decide,
    (SetTimeToLive_soft_fail (localTracker (2 * second) false) (5 * second)).2.1
      (by decide)⟩⟩

end NHistory

namespace NHistory

/-! ## the remote backend -/

/-- On the remote backend, with the store reachable and the bound converted to a score
positive, `Has` is true exactly when the value is a member whose score is at least that
bound. -/
theorem Has_remote_in_window (h : NHistory) (c : RedisClient) (now : Time) (k : String)
    (hr : h.useRedis = true) (hc : h.redisClient = some c) (hup : c.reachable = true)
    (hpos : 0 < float64 (Time.Unix (oldestAllowed h now))) :
    Has h now k = true ↔
      ∃ s, AList.lookup (value h k) c.zset = some s ∧
        float64 (Time.Unix (oldestAllowed h now)) ≤ s := by
  obtain ⟨uh, ttl, ur, rc, ctx, rk, iv, hs, hf⟩ := h
  simp only at hr hc
  subst hr hc
  simp only [oldestAllowed] at hpos ⊢
  simp only [Has, value, RedisClient.ZScore, hup, if_true, decide_eq_true_eq, ge_iff_le]
  cases hl : AList.lookup (if uh = true then hf k else k) c.zset with
  | none =>
    simp only [Option.getD_none]
    constructor
    · intro hle
      exact absurd hpos (not_lt.2 hle)
    · rintro ⟨s, hs1, _⟩
      cases hs1
  | some v =>
    simp only [Option.getD_some]
    constructor
    · intro hle
      exact ⟨v, rfl, hle⟩
    · rintro ⟨s, hs1, hs2⟩
      cases hs1
      exact hs2

/-- The sorted set of a reachable store after `ZRemRangeByScore`, member by member. -/
theorem lookup_ZRemRangeByScore (c : RedisClient) (max : Int) (k : String)
    (hup : c.reachable = true) :
    AList.lookup k (c.ZRemRangeByScore max).zset =
      match AList.lookup k c.zset with
      | some s => if s ≤ max then none else some s
      | none => none := by
  have key := lookup_sweep (fun e => e.2 ≤ max) c.zset k
  simp only [RedisClient.ZRemRangeByScore, hup, if_true]
  exact key

/-- C13 (the code departs from it): on the remote backend `Has` compares the value of
`ZScore`, which is 0 for an absent member and for a failed call, with
`(now - ttl).Unix()`. On a tracker with a ttl of 100 years, at `now = 1700000000s`, the
bound is negative, and `Has("k")` is true on an empty store and on an unreachable one. -/
theorem Has_remote_absent_key :
    isLocal (remoteTracker (3153600000 * second) false) = false ∧
    Time.Unix (Time.Add (1700000000 * second) (-(3153600000 * second))) = -1453600000 ∧
    Has (remoteTracker (3153600000 * second) false) (1700000000 * second) "k" = true ∧
    Has { remoteTracker (3153600000 * second) false with
          redisClient := some { reachable := false, zset := ∅ } }
      (1700000000 * second) "k" = true := by
  decide

/-- C14 (the code departs from it): on the remote backend `Clean` deletes the members
with score at most `(now - ttl).Unix()`, the boundary included. With ttl 2s, after
`Add("edge", 8s)`, at `now = 10s` the bound is 8: `Has("edge")` is true, the remote
`Clean` removes the member, and afterwards `Has("edge")` is false; the local `Clean`
keeps the same entry. -/
theorem Clean_remote_removes_boundary :
    Time.Unix (Time.Add (10 * second) (-(2 * second))) = 8 ∧
    Has (Add (remoteTracker (2 * second) false) "edge" (8 * second)) (10 * second) "edge"
      = true ∧
    (Add (remoteTracker (2 * second) false) "edge" (8 * second)).redisClient.map
      (fun c => AList.lookup "edge" c.zset) = some (some 8) ∧
    (Clean (Add (remoteTracker (2 * second) false) "edge" (8 * second))
      (10 * second)).redisClient.map (fun c => AList.lookup "edge" c.zset) = some none ∧
    Has (Clean (Add (remoteTracker (2 * second) false) "edge" (8 * second)) (10 * second))
      (10 * second) "edge" = false ∧
    AList.lookup "edge" (Clean (Add (localTracker (2 * second) false) "edge" (8 * second))
      (10 * second)).hashes = some (8 * second) := by
  decide

end NHistory

namespace NHistory

/-! ## the cleaner of a tracker -/

/-- Stopping a task that is not among the active ones changes nothing. -/
theorem filter_ne_of_lt (l : List Nat) (n j : Nat) (hl : ∀ i ∈ l, i < n) (hj : n ≤ j) :
    l.filter (fun i => decide (i ≠ j)) = l := by
  apply List.filter_eq_self.2
  intro i hi
  have := hl i hi
  simp only [ne_eq, decide_not, Bool.not_eq_true', decide_eq_false_iff_not]
  omega

/-- One call of `SetCleanInterval` on a tracker that holds the task `n` stops `n` and
starts the task `n + 1`, which the tracker then holds. -/
theorem SetCleanInterval_holdsCleaner (s0 : Scheduler) (n : Nat)
    (st : Scheduler × NHistory) (d : Duration) (hwf : ∀ i ∈ s0.active, i < s0.next)
    (hn : s0.next ≤ n) (hst : holdsCleaner s0 n st) :
    holdsCleaner s0 (n + 1) (SetCleanInterval st.1 st.2 d) := by
  obtain ⟨hi, hact, hnext⟩ := hst
  refine ⟨?_, ?_, ?_⟩
  · simp [SetCleanInterval, Interval, hi, GoInterval.Stop, hnext]
  · simp only [SetCleanInterval, Interval, hi, GoInterval.Stop, hact, hnext]
    rw [List.filter_cons_of_neg (by simp), filter_ne_of_lt _ _ _ hwf hn]
  · simp [SetCleanInterval, Interval, hi, GoInterval.Stop, hnext]

/-- A run of `SetCleanInterval` calls moves the tracker on by one task for each call. -/
theorem setCleanIntervals_holdsCleaner (s0 : Scheduler) (ds : List Duration)
    (hwf : ∀ i ∈ s0.active, i < s0.next) :
    ∀ (n : Nat) (st : Scheduler × NHistory), s0.next ≤ n → holdsCleaner s0 n st →
      holdsCleaner s0 (n + ds.length) (setCleanIntervals st ds) := by
  induction ds with
  | nil => intro n st _ hst; exact hst
  | cons d ds ih =>
    intro n st hn hst
    have hstep := SetCleanInterval_holdsCleaner s0 n st d hwf hn hst
    have := ih (n + 1) _ (Nat.le_succ_of_le hn) hstep
    rw [List.length_cons, show n + (ds.length + 1) = n + 1 + ds.length by omega]
    exact this

/-- The tasks started since `s0` that are active when the tracker holds the task `n`:
the task `n` alone. -/
theorem holdsCleaner_startedSince (s0 : Scheduler) (n : Nat) (st : Scheduler × NHistory)
    (hwf : ∀ i ∈ s0.active, i < s0.next) (hn : s0.next ≤ n) (hst : holdsCleaner s0 n st) :
    startedSince s0 st.1 = [n] ∧ ∀ j, s0.next ≤ j → j ≠ n → j ∉ st.1.active := by
  obtain ⟨_, hact, _⟩ := hst
  have hnone : s0.active.filter (fun j => decide (s0.next ≤ j)) = [] := by
    apply List.filter_eq_nil_iff.2
    intro j hj
    have := hwf j hj
    simp only [decide_eq_true_eq]
    omega
  constructor
  · simp only [startedSince, hact]
    rw [List.filter_cons_of_pos (by simpa using hn), hnone]
  · intro j hj hne hmem
    rw [hact] at hmem
    rcases List.mem_cons.1 hmem with h | h
    · exact hne h
    · have := hwf j h
      omega

/-- C15: with the scheduler as explicit state, `NewNHistory` (given a non-nil handle)
followed by any run of `SetCleanInterval` calls leaves the tracker with exactly one
active cleaner. Construction starts the task `s0.next`, and each call of
`SetCleanInterval` stops the cleaner the tracker holds and starts a new one: after the
calls `ds` the tracker holds the task `s0.next + ds.length`; the active tasks are that
one and the ones active before the construction; the active tasks started since the
construction are that one alone, so their count is 1; every cleaner the tracker held
before is stopped. One more call, with any interval `d`, stops the task held, which was
active, and starts the next one, which was not. -/
theorem one_active_cleaner (md5 : MD5) (generated : String) (s0 : Scheduler)
    (name : String) (timeToLive cleanInterval : Duration) (client : Option RedisClient)
    (useHashing : Bool) (hwf : s0.wf = true) :
    ∃ st : Scheduler × NHistory,
      NewNHistory md5 generated s0 name timeToLive cleanInterval (some client) useHashing
        = .ok st ∧
      ∀ ds : List Duration,
        (setCleanIntervals st ds).2.interval = some { id := s0.next + ds.length } ∧
        (setCleanIntervals st ds).1.active = (s0.next + ds.length) :: s0.active ∧
        startedSince s0 (setCleanIntervals st ds).1 = [s0.next + ds.length] ∧
        (startedSince s0 (setCleanIntervals st ds).1).length = 1 ∧
        (∀ j, s0.next ≤ j → j < s0.next + ds.length →
          j ∉ (setCleanIntervals st ds).1.active) ∧
        (∀ d : Duration,
          (s0.next + ds.length) ∈ (setCleanIntervals st ds).1.active ∧
          (s0.next + ds.length + 1) ∉ (setCleanIntervals st ds).1.active ∧
          (SetCleanInterval (setCleanIntervals st ds).1 (setCleanIntervals st ds).2 d).2.interval
            = some { id := s0.next + ds.length + 1 } ∧
          (s0.next + ds.length) ∉
            (SetCleanInterval (setCleanIntervals st ds).1 (setCleanIntervals st ds).2 d).1.active ∧
          (s0.next + ds.length + 1) ∈
            (SetCleanInterval (setCleanIntervals st ds).1
              (setCleanIntervals st ds).2 d).1.active) := by
  have hwf2 : ∀ i ∈ s0.active, i < s0.next := by
    intro i hi
    have := List.all_eq_true.1 hwf i hi
    simpa using this
  refine ⟨_, rfl, ?_⟩
  intro ds
  have h0 : holdsCleaner s0 s0.next (SetCleanInterval s0
      { hashes := ∅
        useHashing := useHashing
        entryTimeToLive := timeToLive
        redisClient := client
        useRedis := (some client).isSome
        redisKey := if (CreateRedisKey [name] "nhistory" ":").2.isSome
          then "nhistory:" ++ NID generated "nh" 16
          else (CreateRedisKey [name] "nhistory" ":").1
        redisContext := Context.background
        interval := none
        hashFunction := HashIt md5 } cleanInterval) :=
    ⟨rfl, rfl, rfl⟩
  have h1 := setCleanIntervals_holdsCleaner s0 ds hwf2 _ _ (le_refl _) h0
  have hge : s0.next ≤ s0.next + ds.length := Nat.le_add_right _ _
  have h2 := holdsCleaner_startedSince s0 _ _ hwf2 hge h1
  have hfresh : ∀ m : Nat, s0.next ≤ m → m ∉ s0.active := by
    intro m hm hmem
    have := hwf2 m hmem
    omega
  refine ⟨h1.1, h1.2.1, h2.1, congrArg List.length h2.1, ?_, ?_⟩
  · intro j hj hlt
    exact h2.2 j hj (by omega)
  · intro d
    have h3 := SetCleanInterval_holdsCleaner s0 _ _ d hwf2 hge h1
    refine ⟨?_, ?_, h3.1, ?_, ?_⟩
    · rw [h1.2.1]
      exact List.mem_cons_self _ _
    · rw [h1.2.1]
      intro hmem
      rcases List.mem_cons.1 hmem with h | h
      · omega
      · exact hfresh _ (by omega) h
    · rw [h3.2.1]
      intro hmem
      rcases List.mem_cons.1 hmem with h | h
      · omega
      · exact hfresh _ hge h
    · rw [h3.2.1]
      exact List.mem_cons_self _ _

/-- Witness of C15: from the empty scheduler, construction starts the task 0, and after
the calls `SetCleanInterval(1s)`, `SetCleanInterval(2s)` the tracker holds the task 2,
the only active one. -/
theorem one_active_cleaner_witness :
    (⟨0, []⟩ : Scheduler).wf = true ∧
    ∃ st : Scheduler × NHistory,
      NewNHistory zeroMD5 "" ⟨0, []⟩ "orders" (2 * second) second (some none) false
        = .ok st ∧
      (setCleanIntervals st [second, 2 * second]).2.interval = some { id := 2 } ∧
      (setCleanIntervals st [second, 2 * second]).1.active = [2] :=
  ⟨rfl,
   (one_active_cleaner zeroMD5 "" ⟨0, []⟩ "orders" (2 * second) second none false rfl).elim
     (fun st hst => ⟨st, hst.1, (hst.2 [second, 2 * second]).1,
       (hst.2 [second, 2 * second]).2.1⟩)⟩

end NHistory

namespace NHistory

/-! ## helpers.go: key construction and hashing -/

/-- C16: `CreateRedisKey(parts, prefix, sep)` fails, returning the empty string and an
error, exactly when the prefix or one of the parts is the empty string; otherwise it
returns, without error, the prefix followed by the parts in their order, joined by
`sep`. For a non-empty name the key is `"nhistory:" ++ name`, and that is the
collection key of the tracker the constructor returns. -/
theorem CreateRedisKey_exact (parts : List String) (pre sep : String) :
    ((pre = "" ∨ "" ∈ parts) →
      CreateRedisKey parts pre sep = ("", some "empty redis Key Part not allowed")) ∧
    (¬ (pre = "" ∨ "" ∈ parts) →
      CreateRedisKey parts pre sep = (sep.intercalate (pre :: parts), none)) ∧
    ((CreateRedisKey parts pre sep).2.isSome = true ↔ (pre = "" ∨ "" ∈ parts)) ∧
    (∀ name : String, name ≠ "" →
      CreateRedisKey [name] "nhistory" ":" = ("nhistory:" ++ name, none)) ∧
    (∀ (md5 : MD5) (generated : String) (sched : Scheduler) (name : String)
      (timeToLive cleanInterval : Duration) (client : Option RedisClient) (useHashing : Bool),
      name ≠ "" →
      ∃ st, NewNHistory md5 generated sched name timeToLive cleanInterval (some client)
          useHashing = .ok st ∧ st.2.redisKey = "nhistory:" ++ name) := by
  have hany : ∀ (ps : List String) (p : String),
      (([p] ++ ps).any (fun v => v == "") = true) ↔ (p = "" ∨ "" ∈ ps) := by
    intro ps p
    simp only [List.singleton_append, List.any_cons, Bool.or_eq_true, beq_iff_eq,
      List.any_eq_true]
    constructor
    · rintro (h | ⟨x, hx, rfl⟩)
      · exact Or.inl h
      · exact Or.inr hx
    · rintro (h | h)
      · exact Or.inl h
      · exact Or.inr ⟨"", h, rfl⟩
  have herr : ∀ (ps : List String) (p s : String), (p = "" ∨ "" ∈ ps) →
      CreateRedisKey ps p s = ("", some "empty redis Key Part not allowed") := by
    intro ps p s hbad
    unfold CreateRedisKey
    exact if_pos ((hany ps p).2 hbad)
  have hok : ∀ (ps : List String) (p s : String), ¬ (p = "" ∨ "" ∈ ps) →
      CreateRedisKey ps p s = (s.intercalate (p :: ps), none) := by
    intro ps p s hgood
    unfold CreateRedisKey
    exact if_neg (fun hc => hgood ((hany ps p).1 hc))
  have hname : ∀ name : String, name ≠ "" →
      CreateRedisKey [name] "nhistory" ":" = ("nhistory:" ++ name, none) := by
    intro name hne
    rw [hok]
    · rfl
    · rintro (h | h)
      · exact absurd h (by decide)
      · exact hne (List.mem_singleton.1 h).symm
  refine ⟨herr _ _ _, hok _ _ _, ?_, hname, ?_⟩
  · constructor
    · intro hsome
      by_contra hgood
      rw [hok _ _ _ hgood] at hsome
      exact Bool.false_ne_true hsome
    · intro hbad
      rw [herr _ _ _ hbad]
      rfl
  · intro md5 generated sched name timeToLive cleanInterval client useHashing hne
    refine ⟨_, rfl, ?_⟩
    show (if (CreateRedisKey [name] "nhistory" ":").2.isSome = true
      then "nhistory:" ++ NID generated "nh" 16
      else (CreateRedisKey [name] "nhistory" ":").1) = "nhistory:" ++ name
    rw [hname name hne]
    rfl

/-- Witness of C16: an empty part is refused, and the parts "a", "b" under the prefix
"p" give "p:a:b". -/
theorem CreateRedisKey_exact_witness :
    (("p" = "" ∨ "" ∈ ["a", ""]) ∧
      CreateRedisKey ["a", ""] "p" ":" = ("", some "empty redis Key Part not allowed")) ∧
    (¬ ("p" = "" ∨ "" ∈ ["a", "b"]) ∧
      CreateRedisKey ["a", "b"] "p" ":" = (":".intercalate ["p", "a", "b"], none)) :=
  ⟨⟨by decide, (CreateRedisKey_exact ["a", ""] "p" ":").1 (by decide)⟩,
   ⟨by decide, (CreateRedisKey_exact ["a", "b"] "p" ":").2.1 (by decide)⟩⟩

/-- C18: the default hash function `HashIt` is injective, its result being the input
followed by the 16 bytes of the checksum: `HashIt(a) = HashIt(b)` implies `a = b`, and
the length of `HashIt(s)` is the length of `s` plus 16. Hence on a tracker that hashes
with `HashIt` two distinct keys are never recorded under the same value. -/
theorem HashIt_injective (md5 : MD5) :
    (∀ a b : String, HashIt md5 a = HashIt md5 b → a = b) ∧
    (∀ s : String, (HashIt md5 s).length = s.length + 16) ∧
    (∀ h : NHistory, h.useHashing = true → h.hashFunction = HashIt md5 →
      ∀ k1 k2 : String, k1 ≠ k2 → value h k1 ≠ value h k2) := by
  have hinj : ∀ a b : String, HashIt md5 a = HashIt md5 b → a = b := by
    intro a b hab
    have hdata : a.data ++ (md5.digest a).data = b.data ++ (md5.digest b).data := by
      have := congrArg String.data hab
      simpa [HashIt, String.data_append] using this
    have hlen : (md5.digest a).data.length = (md5.digest b).data.length := by
      have ha : (md5.digest a).length = 16 := md5.size_eq a
      have hb : (md5.digest b).length = 16 := md5.size_eq b
      exact ha.trans hb.symm
    exact String.ext (List.append_inj' hdata hlen).1
  refine ⟨hinj, HashIt_length md5, ?_⟩
  intro h hh hf k1 k2 hne hv
  simp only [value, hh, if_true, hf] at hv
  exact hne (hinj k1 k2 hv)

/-- Witness of C18: the keys "a" and "b" have different hashes, whatever the checksum. -/
theorem HashIt_injective_witness :
    "a" ≠ "b" ∧ HashIt zeroMD5 "a" ≠ HashIt zeroMD5 "b" :=
  ⟨by decide, fun heq => absurd ((HashIt_injective zeroMD5).1 "a" "b" heq) (by decide)⟩

end NHistory

namespace NHistory

/-! ## Clean, call after call -/

/-- Erasing a key from a list with distinct keys filters it out. -/
theorem kerase_eq_filter (a : String) (l : List (Σ _ : String, Int)) (nd : l.NodupKeys) :
    List.kerase a l = l.filter (fun x => !decide (x.1 = a)) := by
  induction l with
  | nil => rfl
  | cons s l ih =>
    have hnd := List.nodupKeys_of_nodupKeys_cons nd
    by_cases hs : a = s.1
    · rw [List.kerase_cons_eq hs, List.filter_cons_of_neg (by simp [hs])]
      symm
      apply List.filter_eq_self.2
      intro x hx
      have hnot := List.not_mem_keys_of_nodupKeys_cons nd
      have hne : x.1 ≠ a := by
        intro hxa
        apply hnot
        rw [← hs, ← hxa]
        exact List.mem_keys_of_mem hx
      simp [hne]
    · rw [List.kerase_cons_ne hs, List.filter_cons_of_pos (by simpa using Ne.symm hs), ih hnd]

/-- The entries left by a sweep over a list of entries that erases the flagged ones. -/
theorem entries_foldl_erase (p : (Σ _ : String, Int) → Prop) [DecidablePred p]
    (es : List (Σ _ : String, Int)) (m : AList (fun _ : String => Int)) :
    (es.foldl (fun m e => if p e then m.erase e.1 else m) m).entries =
      m.entries.filter (fun x => !es.any (fun e => decide (p e) && decide (x.1 = e.1))) := by
  induction es generalizing m with
  | nil => simp
  | cons e es ih =>
    rw [List.foldl_cons, ih]
    by_cases hp : p e
    · rw [if_pos hp]
      show List.filter _ (List.kerase e.1 m.entries) = _
      rw [kerase_eq_filter _ _ m.nodupKeys, List.filter_filter]
      apply List.filter_congr
      intro x _
      simp only [List.any_cons, hp, decide_True, Bool.true_and, Bool.not_or]
      exact Bool.and_comm _ _
    · rw [if_neg hp]
      apply List.filter_congr
      intro x _
      simp only [List.any_cons, hp, decide_False, Bool.false_and, Bool.false_or]

/-- The entries left by a sweep of a map over its own entries: the ones not flagged, in
their order. -/
theorem entries_sweep (p : (Σ _ : String, Int) → Prop) [DecidablePred p]
    (m : AList (fun _ : String => Int)) :
    (m.entries.foldl (fun m e => if p e then m.erase e.1 else m) m).entries =
      m.entries.filter (fun x => !decide (p x)) := by
  rw [entries_foldl_erase]
  apply List.filter_congr
  intro x hx
  congr 1
  by_cases hp : p x
  · simp only [hp, decide_True, List.any_eq_true, Bool.and_eq_true, decide_eq_true_eq]
    exact ⟨x, hx, hp, rfl⟩
  · simp only [hp, decide_False]
    apply Bool.eq_false_iff.2
    intro hany
    obtain ⟨e, he, hpe⟩ := List.any_eq_true.1 hany
    simp only [Bool.and_eq_true, decide_eq_true_eq] at hpe
    exact hp ((m.nodupKeys.eq_of_fst_eq hx he hpe.2) ▸ hpe.1)

end NHistory

namespace NHistory

/-- On the local backend `Clean` changes the map only. -/
theorem Clean_local (h : NHistory) (now : Time) (hl : isLocal h = true) :
    Clean h now = { h with hashes := (Clean h now).hashes } := by
  obtain ⟨uh, ttl, ur, rc, ctx, rk, iv, hs, hf⟩ := h
  cases ur <;> cases rc <;> first | rfl | simp [isLocal] at hl

/-- The entries of a local tracker after `Clean`: the ones not older than the bound, in
their order. -/
theorem entries_Clean_local (h : NHistory) (now : Time) (hl : isLocal h = true) :
    (Clean h now).hashes.entries =
      h.hashes.entries.filter (fun e => !decide (e.2 < oldestAllowed h now)) := by
  obtain ⟨uh, ttl, ur, rc, ctx, rk, iv, hs, hf⟩ := h
  have key := entries_sweep
    (fun e => Time.Before e.2 (Time.Add now (Duration.neg ttl)) = true) hs
  have key2 : (hs.entries.foldl
      (fun m e => if Time.Before e.2 (Time.Add now (Duration.neg ttl)) = true
        then m.erase e.1 else m) hs).entries =
      hs.entries.filter (fun e => !decide (e.2 < Time.Add now (Duration.neg ttl))) := by
    rw [key]
    apply List.filter_congr
    intro x _
    simp [Time.Before]
  cases ur <;> cases rc
  · exact key2
  · exact key2
  · exact key2
  · simp [isLocal] at hl

/-- C19: on the local backend with a fixed ttl, `Clean` is idempotent and monotone in
time. `Clean` at `now1` twice gives the same tracker as `Clean` at `now1` once; for
`now1 ≤ now2`, `Clean` at `now1` followed by `Clean` at `now2` gives the same tracker as
`Clean` at `now2` alone; and every entry that survives `Clean` at `now2` survives `Clean`
at `now1`. -/
theorem Clean_idempotent_monotone (h : NHistory) (now1 now2 : Time)
    (hl : isLocal h = true) (hle : now1 ≤ now2) :
    Clean (Clean h now1) now1 = Clean h now1 ∧
    Clean (Clean h now1) now2 = Clean h now2 ∧
    (∀ k v, AList.lookup k (Clean h now2).hashes = some v →
      AList.lookup k (Clean h now1).hashes = some v) := by
  have hl1 : isLocal (Clean h now1) = true := by rw [(Clean_isLocal _ _).1]; exact hl
  have httl : (Clean h now1).entryTimeToLive = h.entryTimeToLive := (Clean_frame h now1).2.2.1
  have twice : ∀ n : Time, now1 ≤ n → Clean (Clean h now1) n = Clean h n := by
    intro n hn
    have hh : (Clean (Clean h now1) n).hashes = (Clean h n).hashes := by
      apply AList.ext
      have hold : oldestAllowed (Clean h now1) n = oldestAllowed h n := by
        unfold oldestAllowed
        rw [httl]
      rw [entries_Clean_local _ _ hl1, entries_Clean_local _ _ hl, entries_Clean_local _ _ hl,
        hold, List.filter_filter]
      apply List.filter_congr
      intro x _
      by_cases hx : x.2 < oldestAllowed h n
      · simp [hx]
      · have hx1 : ¬ x.2 < oldestAllowed h now1 := by
          intro hc
          apply hx
          exact lt_of_lt_of_le hc (oldestAllowed_mono h hn)
        simp [hx, hx1]
    calc Clean (Clean h now1) n
        = { Clean h now1 with hashes := (Clean (Clean h now1) n).hashes } :=
          Clean_local _ _ hl1
      _ = { Clean h now1 with hashes := (Clean h n).hashes } := by rw [hh]
      _ = { h with hashes := (Clean h n).hashes } := by rw [Clean_local h now1 hl]
      _ = Clean h n := (Clean_local h n hl).symm
  refine ⟨twice now1 (le_refl _), twice now2 hle, ?_⟩
  intro k v hk
  rw [lookup_Clean_local h now2 hl k] at hk
  rw [lookup_Clean_local h now1 hl k]
  cases hlk : AList.lookup k h.hashes with
  | none => rw [hlk] at hk; cases hk
  | some w =>
    rw [hlk] at hk
    simp only at hk ⊢
    by_cases hw : w < oldestAllowed h now2
    · rw [if_pos hw] at hk; cases hk
    · rw [if_neg hw] at hk
      have hw1 : ¬ w < oldestAllowed h now1 := by
        intro hc
        apply hw
        exact lt_of_lt_of_le hc (oldestAllowed_mono h hle)
      rw [if_neg hw1]
      exact hk

/-- Witness of C19: a local tracker with ttl 2s holding "old" (recorded at 7s) and "new"
(at 9s), cleaned at 10s and then at 12s. -/
theorem Clean_idempotent_monotone_witness :
    isLocal (Add (Add (localTracker (2 * second) false) "old" (7 * second))
      "new" (9 * second)) = true ∧
    (10 * second : Time) ≤ 12 * second ∧
    Clean (Clean (Add (Add (localTracker (2 * second) false) "old" (7 * second))
      "new" (9 * second)) (10 * second)) (12 * second)
      = Clean (Add (Add (localTracker (2 * second) false) "old" (7 * second))
      "new" (9 * second)) (12 * second) :=
  ⟨by decide, by decide,
   (Clean_idempotent_monotone (Add (Add (localTracker (2 * second) false) "old" (7 * second))
      "new" (9 * second)) (10 * second) (12 * second) (by decide) (by decide)).2.1⟩

end NHistory
